import Mathlib

/-!
# JIT invocation bridge (compiler/lib/Support/Jit.cpp)

A shallow embedding of `JITLambda::create`, `JITLambda::invokeRaw`,
`numArgOfRankedMemrefCallingConvention` and `JITLambda::call`, followed by
theorems about them.

Integer widths.  `size_t` and `uint64_t` values in this file are container
sizes, slot indexes and sums of a few of them; on containers that fit in a
64-bit address space they stay below `2^64`, and they are modelled in `Nat`.
The two variables of type `int` (`numOutputs` in `call`, `pos` in
`invokeRaw`) are 32 bits wide, which container sizes can exceed; they are
modelled in `Int` with an explicit reduction into the `int` range at every
assignment.

Effects.  Calls into code outside Jit.cpp are recorded in a log that every
operation takes and returns, so that "is performed" and "is not performed"
are statements about that log.
-/

namespace Concrete

/-! ## Machine integers -/

/-- Conversion of an integer value to a 32-bit `int` (reduction modulo `2^32`
into `[-2^31, 2^31)`), as done when a wider value is stored in an `int`. -/
def toInt32 (z : Int) : Int := (z + 2147483648) % 4294967296 - 2147483648

/-! ## Data model -/

/-- An output gate of the client parameters, reduced to the two fields that
`JITLambda::call` reads: `shape.dimensions` and `encryption.hasValue()`. -/
structure CircuitGate where
  dimensions : List Int
  encrypted : Bool
  deriving DecidableEq, Repr

/-- The client parameters as read by `call`: the ordered output gates. -/
structure ClientParameters where
  outputs : List CircuitGate
  deriving DecidableEq, Repr

/-- Modelled from the spec: `clientlib::TensorData` and its two builders
`tensorDataFromScalar` and `tensorDataFromMemRef` are declared outside the
given sources.  A value records the arguments its builder received; for a
memref the two pointer arguments `sizes` and `strides` are recorded as the
`rank` slots they point at (the spec's TensorBuffer). -/
inductive TensorData where
  | scalar (bits : Nat)
  | memref (rank allocated aligned offset : Nat) (sizes strides : List Nat)
  deriving DecidableEq, Repr

/-- Modelled from the spec: `clientlib::PublicResult::fromBuffers` is declared
outside the given sources; its result records the two arguments it received. -/
structure PublicResult where
  clientParameters : ClientParameters
  buffers : List TensorData
  deriving DecidableEq, Repr

/-- The objects whose address can appear in a raw argument vector. -/
inductive Addr where
  | preparedArg (i : Nat)
  | rtCtxPtr
  | output (j : Nat)
  | foreign (a : Nat)
  deriving DecidableEq, Repr

/-- A `void *`: `none` is `nullptr`. -/
abbrev RawPtr := Option Addr

/-- The errors built in Jit.cpp, and the one passed through from the engine:
`cannotFindFunction` is "cannot find the function to JIT",
`failedToConstructEngine` is "failed to construct the MLIR ExecutionEngine",
`nullOrMissing pos` is "invoke: argument at pos <pos> is null or missing",
`engineError msg` is an error returned by `invokePacked`. -/
inductive JitError where
  | cannotFindFunction
  | failedToConstructEngine
  | nullOrMissing (pos : Int)
  | engineError (msg : String)
  deriving DecidableEq, Repr

/-- Calls into code outside Jit.cpp, logged in program order. -/
inductive Effect where
  | initializeNativeTarget
  | initializeNativeTargetAsmPrinter
  | registerLLVMDialectTranslation
  | executionEngineCreate (sharedLibPaths : List String)
  | invokePacked (name : String) (args : List RawPtr)
  | fromBuffers (buffers : List TensorData)
  deriving DecidableEq, Repr

/-- The execution engine, external to Jit.cpp.  `invokePacked name args`
either fails with a message or succeeds; on success it yields the values the
compiled function stored through the output pointers (slot `j` holds entry
`j`, a slot it did not store to keeps its initial value 0). -/
structure ExecutionEngine where
  invokePacked : String → List RawPtr → Except String (List Nat)

/-- An `LLVMFuncOp` of the module: its name and its type. -/
structure LLVMFuncOp where
  name : String
  type : String
  deriving DecidableEq, Repr

/-- The module: its function table, in order. -/
structure ModuleOp where
  funcs : List LLVMFuncOp
  deriving DecidableEq, Repr

/-- The lambda built by `create`: function type, name and engine. -/
structure JITLambda where
  type : String
  name : String
  engine : ExecutionEngine

/-- The arguments of `call`: client parameters, prepared inputs and the
runtime context. -/
structure PublicArguments where
  clientParameters : ClientParameters
  preparedArgs : List Nat
  runtimeContext : Nat
  deriving DecidableEq, Repr

/-! ## JITLambda::create -/

/-- `JITLambda::create`.  `engineCreate` stands for
`mlir::ExecutionEngine::create` applied to the module, the optimisation
pipeline and the shared library paths. -/
def JITLambda.create (engineCreate : ModuleOp → List String → Option ExecutionEngine)
    (name : String) (module : ModuleOp) (runtimeLibPath : Option String)
    (log : List Effect) : Except JitError JITLambda × List Effect :=
  match module.funcs.find? (fun op => op.name == name) with
  | none => (.error .cannotFindFunction, log)
  | some funcOp =>
    let log1 := log ++ [.initializeNativeTarget, .initializeNativeTargetAsmPrinter,
      .registerLLVMDialectTranslation]
    let sharedLibPaths : List String :=
      match runtimeLibPath with
      | some p => [p]
      | none => []
    let log2 := log1 ++ [.executionEngineCreate sharedLibPaths]
    match engineCreate module sharedLibPaths with
    | none => (.error .failedToConstructEngine, log2)
    | some engine => (.ok ⟨funcOp.type, name, engine⟩, log2)

/-! ## JITLambda::invokeRaw -/

/-- `JITLambda::invokeRaw`.  `found` is the index `std::find` stops at (the
length when there is no null entry); `pos` is an `int`. -/
def JITLambda.invokeRaw (lambda : JITLambda) (args : List RawPtr) (log : List Effect) :
    Except JitError (List Nat) × List Effect :=
  let found := args.findIdx (fun p => p == none)
  if found = args.length then
    (match lambda.engine.invokePacked lambda.name args with
      | .ok stored => .ok stored
      | .error msg => .error (.engineError msg),
     log ++ [.invokePacked lambda.name args])
  else
    let pos := toInt32 (found : Int)
    (.error (.nullOrMissing pos), log)

/-! ## numArgOfRankedMemrefCallingConvention and JITLambda::call -/

/-- `numArgOfRankedMemrefCallingConvention`. -/
def numArgOfRankedMemrefCallingConvention (rank : Nat) : Nat := 3 + 2 * rank

/-- One iteration of the counting loop of `call`.  `numOutputs` is an `int`
(`auto numOutputs = 0`); `numOutputs += x` with `x` a `uint64_t` forms the
sum in `uint64_t` and converts it back to `int`, which is the sum reduced
into the `int` range.  `numOutputs += 1` is taken with the same reduction. -/
def countStep (numOutputs : Int) (output : CircuitGate) : Int :=
  if output.dimensions.isEmpty then
    if output.encrypted then
      toInt32 (numOutputs + (numArgOfRankedMemrefCallingConvention 1 : Nat))
    else
      toInt32 (numOutputs + 1)
  else
    let rank := output.dimensions.length + (if output.encrypted then 1 else 0)
    toInt32 (numOutputs + (numArgOfRankedMemrefCallingConvention rank : Nat))

/-- The counting loop of `call`: `numOutputs` after the loop. -/
def countOutputs (outputs : List CircuitGate) : Int :=
  outputs.foldl countStep 0

/-- One of the two filling loops of `call`: `rawArgs[i++] = &x` for the
elements `x` of a container of `count` elements, `addr k` being the address
of element `k`. -/
def fillPointers (addr : Nat → Addr) (count : Nat) (st : List RawPtr × Nat) :
    List RawPtr × Nat :=
  (List.range count).foldl (fun s k => (s.1.set s.2 (some (addr k)), s.2 + 1)) st

/-- The raw argument vector `call` builds for `numPrepared` prepared inputs
and an outputs vector of `numSlots` slots. -/
def assembleRawArgs (numPrepared numSlots : Nat) : List RawPtr :=
  let rawArgs : List RawPtr := List.replicate (numPrepared + 1 + numSlots) none
  let s1 := fillPointers Addr.preparedArg numPrepared (rawArgs, 0)
  let s2 : List RawPtr × Nat := (s1.1.set s1.2 (some Addr.rtCtxPtr), s1.2 + 1)
  let s3 := fillPointers Addr.output numSlots s2
  s3.1

/-- The slots a `size_t *` into `outputs` designates when `rank` entries are
read through it; `none` when they are not all inside the vector. -/
def slotWindow (outputs : List Nat) (start rank : Nat) : Option (List Nat) :=
  if start + rank ≤ outputs.length then some ((outputs.drop start).take rank) else none

/-- One iteration of the decoding loop of `call`: the buffer pushed and the
new `outputOffset`; `none` when a slot outside `outputs` is read. -/
def decodeGate (outputs : List Nat) (outputOffset : Nat) (output : CircuitGate) :
    Option (TensorData × Nat) :=
  if output.dimensions.isEmpty && !output.encrypted then
    match outputs[outputOffset]? with
    | none => none
    | some bits => some (TensorData.scalar bits, outputOffset + 1)
  else
    let rank := output.dimensions.length + (if output.encrypted then 1 else 0)
    match outputs[outputOffset]?, outputs[outputOffset + 1]?, outputs[outputOffset + 2]?,
      slotWindow outputs (outputOffset + 3) rank,
      slotWindow outputs (outputOffset + 3 + rank) rank with
    | some allocated, some aligned, some offset, some sizes, some strides =>
      some (TensorData.memref rank allocated aligned offset sizes strides,
        outputOffset + 3 + rank + rank)
    | _, _, _, _, _ => none

/-- The decoding loop of `call` from a given cursor and buffer vector: the
final buffers and cursor. -/
def decodeLoop (outputs : List Nat) :
    List CircuitGate → Nat → List TensorData → Option (List TensorData × Nat)
  | [], outputOffset, buffers => some (buffers, outputOffset)
  | output :: rest, outputOffset, buffers =>
    match decodeGate outputs outputOffset output with
    | none => none
    | some (buffer, next) => decodeLoop outputs rest next (buffers ++ [buffer])

/-- What a run of `call` ends in. -/
inductive CallOutcome where
  | lengthError
  | error (e : JitError)
  | undefinedRead
  | result (r : PublicResult)
  deriving DecidableEq, Repr

/-- The size of the vector built by `std::vector<void *> outputs(numOutputs)`
in `call`.  A negative `numOutputs` converts to a size above `max_size()`,
for which the constructor throws: `none`. -/
def outputsSize (args : PublicArguments) : Option Nat :=
  let numOutputs := countOutputs args.clientParameters.outputs
  if numOutputs < 0 then none else some numOutputs.toNat

/-- The contents of `outputs` after a successful invocation: every slot holds
what the compiled function stored in it. -/
def storedOutputs (numSlots : Nat) (stored : List Nat) : List Nat :=
  (List.range numSlots).map (fun j => stored.getD j 0)

/-- `JITLambda::call`.  `lengthError` is the exception of the `outputs`
constructor; `undefinedRead` is a read outside `outputs` in the decoding
loop. -/
def JITLambda.call (lambda : JITLambda) (args : PublicArguments) (log : List Effect) :
    CallOutcome × List Effect :=
  match outputsSize args with
  | none => (.lengthError, log)
  | some numSlots =>
    let rawArgs := assembleRawArgs args.preparedArgs.length numSlots
    match lambda.invokeRaw rawArgs log with
    | (.error e, log1) => (.error e, log1)
    | (.ok stored, log1) =>
      let outputs := storedOutputs numSlots stored
      match decodeLoop outputs args.clientParameters.outputs 0 [] with
      | none => (.undefinedRead, log1)
      | some (buffers, _) =>
        (.result ⟨args.clientParameters, buffers⟩, log1 ++ [.fromBuffers buffers])

/-! ## The slot rule of the specification -/

/-- The spec's `effectiveRank`. -/
def effectiveRank (g : CircuitGate) : Nat :=
  g.dimensions.length + (if g.encrypted then 1 else 0)

/-- The spec's `slots(gate)`: 1 for a clear scalar, `3 + 2 * effectiveRank`
otherwise. -/
def slots (g : CircuitGate) : Nat :=
  if g.dimensions = [] ∧ g.encrypted = false then 1 else 3 + 2 * effectiveRank g

/-- The sum of `slots` over a gate sequence. -/
def totalSlots (gates : List CircuitGate) : Nat := (gates.map slots).sum

/-- The value section 4.1 of the specification assigns to a gate whose region
starts at slot `c` of `outputs`: the scalar in slot `c` for a clear scalar,
otherwise the buffer made of slots `c`, `c+1`, `c+2`, then `effectiveRank`
sizes and `effectiveRank` strides. -/
def decodedValue (outputs : List Nat) (c : Nat) (g : CircuitGate) : TensorData :=
  if g.dimensions = [] ∧ g.encrypted = false then
    TensorData.scalar (outputs.getD c 0)
  else
    TensorData.memref (effectiveRank g) (outputs.getD c 0) (outputs.getD (c + 1) 0)
      (outputs.getD (c + 2) 0)
      ((List.range (effectiveRank g)).map (fun i => outputs.getD (c + 3 + i) 0))
      ((List.range (effectiveRank g)).map
        (fun i => outputs.getD (c + 3 + effectiveRank g + i) 0))

/-- The values the specification assigns to a gate sequence whose regions are
laid out back to back from slot `c`. -/
def decodedValues (outputs : List Nat) : Nat → List CircuitGate → List TensorData
  | _, [] => []
  | c, g :: rest => decodedValue outputs c g :: decodedValues outputs (c + slots g) rest

/-- Modelled from the spec: the sources contain no encoder; this is the
inverse of the decoding rule of section 4.1, writing a buffer as base
pointer, data pointer, element offset, sizes, strides. -/
def encodeTensorBuffer (allocated aligned offset : Nat) (sizes strides : List Nat) :
    List Nat :=
  allocated :: aligned :: offset :: (sizes ++ strides)

/-- The cursor at which the region of gate `k` starts when regions are laid
out back to back from 0: the slots of the gates before it. -/
def regionStart (gates : List CircuitGate) (k : Nat) : Nat := totalSlots (gates.take k)

/-! ## Inputs used in the evaluations below -/

/-- A clear tensor gate of rank `2^30` (all dimensions 1). -/
def hugeGate : CircuitGate := ⟨List.replicate 1073741824 1, false⟩

/-- An engine whose packed invocation succeeds and stores the given values. -/
def storingEngine (stored : List Nat) : ExecutionEngine :=
  ⟨fun _ _ => .ok stored⟩

/-- An engine whose packed invocation fails. -/
def failingEngine : ExecutionEngine :=
  ⟨fun _ _ => .error "trap"⟩

/-- Two output gates: a clear scalar, then an encrypted tensor of two
dimensions (10 slots in all), with one prepared input. -/
def twoGateArgs : PublicArguments :=
  ⟨⟨[⟨[], false⟩, ⟨[2, 3], true⟩]⟩, [42], 0⟩

/-! ## Lemmas on the machine integers -/

theorem toInt32_of_range (z : Int) (h1 : -2147483648 ≤ z) (h2 : z < 2147483648) :
    toInt32 z = z := by
  unfold toInt32
  omega

theorem toInt32_range (z : Int) : -2147483648 ≤ toInt32 z ∧ toInt32 z < 2147483648 := by
  unfold toInt32
  omega

theorem toInt32_add_left (a b : Int) : toInt32 (toInt32 a + b) = toInt32 (a + b) := by
  unfold toInt32
  omega

/-! ## Lemmas on the slot rule and the counting loop -/

theorem slots_pos (g : CircuitGate) : 1 ≤ slots g := by
  unfold slots
  split <;> omega

theorem countStep_eq (numOutputs : Int) (g : CircuitGate) :
    countStep numOutputs g = toInt32 (numOutputs + (slots g : Nat)) := by
  obtain ⟨dims, enc⟩ := g
  cases dims with
  | nil =>
    cases enc <;>
      simp [countStep, slots, effectiveRank, numArgOfRankedMemrefCallingConvention]
  | cons d ds =>
    cases enc <;>
      simp [countStep, slots, effectiveRank, numArgOfRankedMemrefCallingConvention]

theorem foldl_countStep (gates : List CircuitGate) (acc : Int) (h : toInt32 acc = acc) :
    gates.foldl countStep acc = toInt32 (acc + (totalSlots gates : Nat)) := by
  induction gates generalizing acc with
  | nil => simp [totalSlots, h]
  | cons g rest ih =>
    have hstep : toInt32 (countStep acc g) = countStep acc g := by
      rw [countStep_eq]
      have := toInt32_range (acc + (slots g : Nat))
      exact toInt32_of_range _ this.1 this.2
    rw [List.foldl_cons, ih _ hstep, countStep_eq, toInt32_add_left]
    congr 1
    simp [totalSlots]
    ring

/-- The counting loop computes the slot total reduced into the `int` range. -/
theorem countOutputs_eq (gates : List CircuitGate) :
    countOutputs gates = toInt32 (totalSlots gates : Nat) := by
  unfold countOutputs
  rw [foldl_countStep gates 0 (by decide)]
  simp

/-- When the slot total fits in an `int`, the counting loop computes it. -/
theorem countOutputs_of_fits (gates : List CircuitGate) (h : totalSlots gates < 2147483648) :
    countOutputs gates = (totalSlots gates : Nat) := by
  rw [countOutputs_eq]
  apply toInt32_of_range <;> omega

theorem slots_replicate (n : Nat) (d : Int) (enc : Bool) :
    slots ⟨List.replicate (n + 1) d, enc⟩ = 3 + 2 * (n + 1 + (if enc then 1 else 0)) := by
  have hne : List.replicate (n + 1) d ≠ [] := by
    rw [List.replicate_succ]
    exact List.cons_ne_nil _ _
  unfold slots effectiveRank
  rw [if_neg (fun h => hne h.1), List.length_replicate]

theorem slots_hugeGate : slots hugeGate = 2147483651 :=
  slots_replicate 1073741823 1 false

/-! ## Lemmas on the decoding loop -/

theorem slotWindow_of_le (outputs : List Nat) (start rank : Nat)
    (h : start + rank ≤ outputs.length) :
    slotWindow outputs start rank =
      some ((List.range rank).map (fun i => outputs.getD (start + i) 0)) := by
  unfold slotWindow
  rw [if_pos h]
  congr 1
  apply List.ext_getElem
  · simp
    omega
  · intro i h1 h2
    simp at h1 h2
    simp [List.getD_eq_getElem?_getD]
    rw [List.getElem?_eq_getElem (by omega)]
    simp

theorem slotWindow_of_gt (outputs : List Nat) (start rank : Nat)
    (h : outputs.length < start + rank) : slotWindow outputs start rank = none := by
  unfold slotWindow
  rw [if_neg (by omega)]

theorem getElem?_eq_some_getD (outputs : List Nat) (i : Nat) (h : i < outputs.length) :
    outputs[i]? = some (outputs.getD i 0) := by
  rw [List.getD_eq_getElem?_getD, List.getElem?_eq_getElem h]
  simp

/-- A gate whose region lies inside `outputs` decodes to the specified value
and moves the cursor by `slots`. -/
theorem decodeGate_of_le (outputs : List Nat) (c : Nat) (g : CircuitGate)
    (h : c + slots g ≤ outputs.length) :
    decodeGate outputs c g = some (decodedValue outputs c g, c + slots g) := by
  obtain ⟨dims, enc⟩ := g
  by_cases hs : dims = [] ∧ enc = false
  · obtain ⟨hd, he⟩ := hs
    subst hd he
    simp [slots] at h
    simp only [decodeGate, decodedValue, slots]
    rw [getElem?_eq_some_getD outputs c (by omega)]
    simp
  · have hslots : slots ⟨dims, enc⟩ = 3 + 2 * effectiveRank ⟨dims, enc⟩ := by
      simp only [slots]
      rw [if_neg hs]
    have hcond : (dims.isEmpty && !enc) = false := by
      cases dims <;> cases enc <;> simp_all
    rw [hslots] at h ⊢
    have hr : dims.length + (if enc = true then 1 else 0) = effectiveRank ⟨dims, enc⟩ := rfl
    simp only [decodeGate, hcond, decodedValue, if_neg hs, hr]
    rw [getElem?_eq_some_getD outputs c (by omega),
      getElem?_eq_some_getD outputs (c + 1) (by omega),
      getElem?_eq_some_getD outputs (c + 2) (by omega),
      slotWindow_of_le outputs (c + 3) _ (by omega),
      slotWindow_of_le outputs (c + 3 + effectiveRank ⟨dims, enc⟩) _ (by omega)]
    simp
    omega

/-- A gate whose region does not lie inside `outputs` makes the loop read a
slot outside the vector. -/
theorem decodeGate_of_gt (outputs : List Nat) (c : Nat) (g : CircuitGate)
    (h : outputs.length < c + slots g) : decodeGate outputs c g = none := by
  obtain ⟨dims, enc⟩ := g
  by_cases hs : dims = [] ∧ enc = false
  · obtain ⟨hd, he⟩ := hs
    subst hd he
    simp [slots] at h
    simp [decodeGate, List.getElem?_eq_none (by omega : outputs.length ≤ c)]
  · have hslots : slots ⟨dims, enc⟩ = 3 + 2 * effectiveRank ⟨dims, enc⟩ := by
      simp only [slots]
      rw [if_neg hs]
    have hcond : (dims.isEmpty && !enc) = false := by
      cases dims <;> cases enc <;> simp_all
    rw [hslots] at h
    have hr : dims.length + (if enc = true then 1 else 0) = effectiveRank ⟨dims, enc⟩ := rfl
    simp only [decodeGate, hcond, hr]
    rw [slotWindow_of_gt outputs (c + 3 + effectiveRank ⟨dims, enc⟩) _ (by omega)]
    split <;> simp_all

theorem totalSlots_cons (g : CircuitGate) (rest : List CircuitGate) :
    totalSlots (g :: rest) = slots g + totalSlots rest := by
  simp [totalSlots]

theorem totalSlots_nil : totalSlots [] = 0 := rfl

theorem decodedValues_length (outputs : List Nat) (c : Nat) (gates : List CircuitGate) :
    (decodedValues outputs c gates).length = gates.length := by
  induction gates generalizing c with
  | nil => rfl
  | cons g rest ih => simp [decodedValues, ih]

/-- Entry `k` of `decodedValues` is the value of gate `k` at the cursor reached
after the gates before it. -/
theorem decodedValues_getElem? (outputs : List Nat) (c : Nat) (gates : List CircuitGate)
    (k : Nat) (g : CircuitGate) (hg : gates[k]? = some g) :
    (decodedValues outputs c gates)[k]? =
      some (decodedValue outputs (c + totalSlots (gates.take k)) g) := by
  induction gates generalizing c k with
  | nil => simp at hg
  | cons g0 rest ih =>
    cases k with
    | zero =>
      simp at hg
      subst hg
      simp [decodedValues, totalSlots]
    | succ k =>
      simp at hg
      simp only [decodedValues, List.getElem?_cons_succ, List.take_succ_cons, totalSlots_cons]
      rw [ih (c + slots g0) k hg, Nat.add_assoc]

/-- When every region lies inside `outputs`, the loop decodes every gate. -/
theorem decodeLoop_of_le (outputs : List Nat) (gates : List CircuitGate) (c : Nat)
    (buffers : List TensorData) (h : c + totalSlots gates ≤ outputs.length) :
    decodeLoop outputs gates c buffers =
      some (buffers ++ decodedValues outputs c gates, c + totalSlots gates) := by
  induction gates generalizing c buffers with
  | nil => simp [decodeLoop, decodedValues, totalSlots]
  | cons g rest ih =>
    rw [totalSlots_cons] at h
    simp only [decodeLoop]
    rw [decodeGate_of_le outputs c g (by omega)]
    simp only
    rw [ih (c + slots g) _ (by omega), totalSlots_cons]
    simp [decodedValues, Nat.add_assoc]

/-- When some region does not lie inside `outputs`, the loop reads outside it. -/
theorem decodeLoop_of_gt (outputs : List Nat) (gates : List CircuitGate) (c : Nat)
    (buffers : List TensorData) (hc : c ≤ outputs.length)
    (h : outputs.length < c + totalSlots gates) :
    decodeLoop outputs gates c buffers = none := by
  induction gates generalizing c buffers with
  | nil => simp [totalSlots] at h; omega
  | cons g rest ih =>
    rw [totalSlots_cons] at h
    simp only [decodeLoop]
    by_cases hg : c + slots g ≤ outputs.length
    · rw [decodeGate_of_le outputs c g hg]
      simp only
      exact ih (c + slots g) _ hg (by omega)
    · rw [decodeGate_of_gt outputs c g (by omega)]

/-- Whatever the loop returns, it read inside `outputs` only, produced the
specified values in gate order and stopped at the slot total. -/
theorem decodeLoop_some (outputs : List Nat) (gates : List CircuitGate) (c : Nat)
    (buffers res : List TensorData) (final : Nat) (hc : c ≤ outputs.length)
    (h : decodeLoop outputs gates c buffers = some (res, final)) :
    c + totalSlots gates ≤ outputs.length ∧ final = c + totalSlots gates ∧
      res = buffers ++ decodedValues outputs c gates := by
  by_cases hle : c + totalSlots gates ≤ outputs.length
  · rw [decodeLoop_of_le outputs gates c buffers hle] at h
    simp at h
    exact ⟨hle, h.2.symm, h.1.symm⟩
  · rw [decodeLoop_of_gt outputs gates c buffers hc (by omega)] at h
    simp at h

/-! ## Lemmas on the raw argument vector and `invokeRaw` -/

theorem fillPointers_succ (addr : Nat → Addr) (count : Nat) (st : List RawPtr × Nat) :
    fillPointers addr (count + 1) st =
      (((fillPointers addr count st).1.set (fillPointers addr count st).2 (some (addr count))),
        (fillPointers addr count st).2 + 1) := by
  simp [fillPointers, List.range_succ, List.foldl_append]

/-- A filling loop started at the end of `pre` overwrites the next `count`
entries with the addresses `addr 0`, ..., `addr (count - 1)` in order. -/
theorem fillPointers_eq (addr : Nat → Addr) (count : Nat) (pre post : List RawPtr) :
    fillPointers addr count (pre ++ List.replicate count none ++ post, pre.length) =
      (pre ++ (List.range count).map (fun k => some (addr k)) ++ post, pre.length + count) := by
  induction count generalizing post with
  | zero => simp [fillPointers]
  | succ n ih =>
    have hrep : pre ++ List.replicate (n + 1) none ++ post =
        pre ++ List.replicate n none ++ (none :: post) := by
      rw [List.replicate_succ']
      simp
    rw [fillPointers_succ, hrep, ih (none :: post)]
    simp only [List.range_succ, List.map_append, List.map_cons, List.map_nil]
    rw [List.set_append_right _ _ (by simp)]
    simp [Nat.add_assoc]

/-- The raw argument vector: the prepared inputs in order, the runtime context
pointer, the output slots in order. -/
theorem assembleRawArgs_eq (n m : Nat) :
    assembleRawArgs n m =
      (List.range n).map (fun k => some (Addr.preparedArg k)) ++ [some Addr.rtCtxPtr] ++
        (List.range m).map (fun k => some (Addr.output k)) := by
  have h1 := fillPointers_eq Addr.preparedArg n [] (List.replicate (1 + m) none)
  have hrep : List.replicate (n + 1 + m) (none : RawPtr) =
      [] ++ List.replicate n none ++ List.replicate (1 + m) none := by
    rw [List.nil_append, List.append_replicate_replicate]
    congr 1
    omega
  have hset : ((List.range n).map (fun k => some (Addr.preparedArg k)) ++
      List.replicate (1 + m) (none : RawPtr)).set n (some Addr.rtCtxPtr) =
      ((List.range n).map (fun k => some (Addr.preparedArg k)) ++ [some Addr.rtCtxPtr]) ++
        List.replicate m none ++ [] := by
    rw [List.set_append_right _ _ (by simp), Nat.add_comm 1 m, List.replicate_succ]
    simp
  have h2 := fillPointers_eq Addr.output m
    ((List.range n).map (fun k => some (Addr.preparedArg k)) ++ [some Addr.rtCtxPtr]) []
  simp only [List.length_append, List.length_map, List.length_range, List.length_singleton,
    List.length_nil, Nat.zero_add, List.nil_append] at h1 h2
  unfold assembleRawArgs
  simp only [hrep, List.nil_append]
  rw [h1]
  simp only
  rw [hset, h2]
  simp

theorem assembleRawArgs_ne_none (n m : Nat) (p : RawPtr) (h : p ∈ assembleRawArgs n m) :
    p ≠ none := by
  rw [assembleRawArgs_eq] at h
  simp at h
  rcases h with ⟨k, _, rfl⟩ | rfl | ⟨k, _, rfl⟩ <;> simp

/-- Without a null entry `invokeRaw` performs the packed invocation once, on
the vector it received, and returns what the engine returned. -/
theorem invokeRaw_of_no_null (lambda : JITLambda) (args : List RawPtr) (log : List Effect)
    (h : ∀ p ∈ args, p ≠ none) :
    lambda.invokeRaw args log =
      (match lambda.engine.invokePacked lambda.name args with
        | .ok stored => .ok stored
        | .error msg => .error (.engineError msg),
       log ++ [.invokePacked lambda.name args]) := by
  have hfound : args.findIdx (fun p => p == none) = args.length := by
    apply List.findIdx_eq_length_of_false
    intro p hp
    simpa using h p hp
  simp only [JITLambda.invokeRaw]
  rw [if_pos hfound]

/-- With a null entry `invokeRaw` returns the null-argument error without
calling the engine; the position it carries is the index of the first null
entry converted to `int`. -/
theorem invokeRaw_of_null (lambda : JITLambda) (args : List RawPtr) (log : List Effect)
    (h : none ∈ args) :
    lambda.invokeRaw args log =
      (.error (.nullOrMissing (toInt32 (args.findIdx (fun p => p == none) : Nat))), log) := by
  have hlt : args.findIdx (fun p => p == none) < args.length := by
    rw [List.findIdx_lt_length]
    exact ⟨none, h, by simp⟩
  simp only [JITLambda.invokeRaw]
  rw [if_neg (by omega)]

theorem findIdx_replicate_append (n : Nat) (a : Addr) (rest : List RawPtr) :
    (List.replicate n (some a) ++ rest).findIdx (fun p => p == none) =
      rest.findIdx (fun p => p == none) + n := by
  have hfull : (List.replicate n (some a) : List RawPtr).findIdx (fun p => p == none) =
      (List.replicate n (some a) : List RawPtr).length := by
    apply List.findIdx_eq_length_of_false
    intro p hp
    rw [List.eq_of_mem_replicate hp]
    rfl
  rw [List.findIdx_append, hfull, if_neg (Nat.lt_irrefl _), List.length_replicate]

/-- The position reported for a first null entry below `2^31` is its index. -/
theorem invokeRaw_null_of_fits (lambda : JITLambda) (args : List RawPtr) (log : List Effect)
    (h : none ∈ args) (hfit : args.findIdx (fun p => p == none) < 2147483648) :
    lambda.invokeRaw args log =
      (.error (.nullOrMissing (args.findIdx (fun p => p == none) : Nat)), log) := by
  rw [invokeRaw_of_null lambda args log h, toInt32_of_range] <;> omega

theorem invokeRaw_replicate_null (lambda : JITLambda) (log : List Effect) (n : Nat)
    (a : Addr) :
    lambda.invokeRaw (List.replicate n (some a) ++ [none]) log =
      (.error (.nullOrMissing (toInt32 (n : Nat))), log) := by
  rw [invokeRaw_of_null lambda _ log
    (List.mem_append_right _ (List.mem_singleton_self _)), findIdx_replicate_append]
  have h0 : ([none] : List RawPtr).findIdx (fun p => p == none) = 0 := rfl
  rw [h0, Nat.zero_add]

/-! ## Lemmas on `call` -/

theorem outputsSize_of_fits (args : PublicArguments)
    (h : totalSlots args.clientParameters.outputs < 2147483648) :
    outputsSize args = some (totalSlots args.clientParameters.outputs) := by
  unfold outputsSize
  simp only [countOutputs_of_fits _ h]
  rw [if_neg (by omega)]
  simp

theorem countOutputs_hugeGate : countOutputs [hugeGate] = -2147483645 := by
  rw [countOutputs_eq, totalSlots_cons, totalSlots_nil, slots_hugeGate]
  decide

theorem countOutputs_two_hugeGates : countOutputs [hugeGate, hugeGate] = 6 := by
  rw [countOutputs_eq, totalSlots_cons, totalSlots_cons, totalSlots_nil, slots_hugeGate]
  decide

theorem call_of_no_outputs_vector (lambda : JITLambda) (args : PublicArguments)
    (log : List Effect) (h : outputsSize args = none) :
    lambda.call args log = (.lengthError, log) := by
  simp only [JITLambda.call, h]

/-- Once the outputs vector exists, `call` performs the packed invocation on
the assembled vector and continues according to what the engine returned. -/
theorem call_of_outputs_vector (lambda : JITLambda) (args : PublicArguments)
    (log : List Effect) (m : Nat) (h : outputsSize args = some m) :
    lambda.call args log =
      match lambda.engine.invokePacked lambda.name
          (assembleRawArgs args.preparedArgs.length m) with
      | .error msg => (.error (.engineError msg),
          log ++ [.invokePacked lambda.name (assembleRawArgs args.preparedArgs.length m)])
      | .ok stored =>
        match decodeLoop (storedOutputs m stored) args.clientParameters.outputs 0 [] with
        | none => (.undefinedRead,
            log ++ [.invokePacked lambda.name (assembleRawArgs args.preparedArgs.length m)])
        | some (buffers, _) => (.result ⟨args.clientParameters, buffers⟩,
            log ++ [.invokePacked lambda.name (assembleRawArgs args.preparedArgs.length m)] ++
              [.fromBuffers buffers]) := by
  simp only [JITLambda.call, h]
  rw [invokeRaw_of_no_null lambda _ log (assembleRawArgs_ne_none _ _)]
  cases lambda.engine.invokePacked lambda.name (assembleRawArgs args.preparedArgs.length m) with
  | error msg => rfl
  | ok stored => rfl

/-- The null-argument error never comes out of `call`. -/
theorem call_ne_nullOrMissing (lambda : JITLambda) (args : PublicArguments)
    (log : List Effect) (pos : Int) :
    (lambda.call args log).1 ≠ .error (.nullOrMissing pos) := by
  cases h : outputsSize args with
  | none => simp [call_of_no_outputs_vector lambda args log h]
  | some m =>
    rw [call_of_outputs_vector lambda args log m h]
    cases lambda.engine.invokePacked lambda.name (assembleRawArgs args.preparedArgs.length m) with
    | error msg => simp
    | ok stored =>
      simp only
      cases decodeLoop (storedOutputs m stored) args.clientParameters.outputs 0 [] with
      | none => simp
      | some res => simp

theorem storedOutputs_length (m : Nat) (stored : List Nat) :
    (storedOutputs m stored).length = m := by
  simp [storedOutputs]

/-- When the slot total fits in an `int`, a successful invocation is followed
by the decoding of every gate, inside the outputs vector, up to the total. -/
theorem call_of_fits (lambda : JITLambda) (args : PublicArguments) (log : List Effect)
    (stored : List Nat) (h : totalSlots args.clientParameters.outputs < 2147483648)
    (hinv : lambda.engine.invokePacked lambda.name
      (assembleRawArgs args.preparedArgs.length (totalSlots args.clientParameters.outputs)) =
        .ok stored) :
    (lambda.call args log).1 = .result ⟨args.clientParameters,
      decodedValues (storedOutputs (totalSlots args.clientParameters.outputs) stored) 0
        args.clientParameters.outputs⟩ := by
  rw [call_of_outputs_vector lambda args log _ (outputsSize_of_fits args h), hinv]
  simp only
  rw [decodeLoop_of_le _ _ 0 [] (by simp [storedOutputs_length])]
  simp

theorem getD_append_offset (pre l : List Nat) (i : Nat) :
    (pre ++ l).getD (pre.length + i) 0 = l.getD i 0 := by
  rw [List.getD_eq_getElem?_getD, List.getD_eq_getElem?_getD,
    List.getElem?_append_right (by omega)]
  simp

theorem map_getD_prefix (l rest : List Nat) :
    (List.range l.length).map (fun i => (l ++ rest).getD i 0) = l := by
  apply List.ext_getElem
  · simp
  · intro i h1 h2
    simp at h1
    simp [List.getD_eq_getElem?_getD, List.getElem?_append_left h1,
      List.getElem?_eq_getElem h1]

theorem slots_of_rank_pos (g : CircuitGate) (h : 1 ≤ effectiveRank g) :
    slots g = 3 + 2 * effectiveRank g := by
  unfold slots
  rw [if_neg]
  rintro ⟨hd, he⟩
  simp [effectiveRank, hd, he] at h

theorem totalSlots_append (xs ys : List CircuitGate) :
    totalSlots (xs ++ ys) = totalSlots xs + totalSlots ys := by
  simp [totalSlots]

theorem totalSlots_take_succ (gates : List CircuitGate) (k : Nat) (g : CircuitGate)
    (hg : gates[k]? = some g) :
    totalSlots (gates.take (k + 1)) = totalSlots (gates.take k) + slots g := by
  rw [List.take_succ, hg, totalSlots_append]
  simp [totalSlots]

theorem totalSlots_take_le (gates : List CircuitGate) (k : Nat) :
    totalSlots (gates.take k) ≤ totalSlots gates := by
  have h := totalSlots_append (gates.take k) (gates.drop k)
  rw [List.take_append_drop] at h
  omega

/-- A run of `call` that ends in a result went through a successful packed
invocation and a decoding loop that stayed inside `outputs`. -/
theorem call_result_inv (lambda : JITLambda) (args : PublicArguments) (log : List Effect)
    (r : PublicResult) (hres : (lambda.call args log).1 = .result r) :
    ∃ m stored, outputsSize args = some m ∧
      lambda.engine.invokePacked lambda.name (assembleRawArgs args.preparedArgs.length m) =
        .ok stored ∧
      decodeLoop (storedOutputs m stored) args.clientParameters.outputs 0 [] =
        some (r.buffers, totalSlots args.clientParameters.outputs) ∧
      r.buffers = decodedValues (storedOutputs m stored) 0 args.clientParameters.outputs ∧
      totalSlots args.clientParameters.outputs ≤ m ∧
      lambda.call args log = (.result r,
        log ++ [.invokePacked lambda.name (assembleRawArgs args.preparedArgs.length m)] ++
          [.fromBuffers r.buffers]) := by
  cases hsize : outputsSize args with
  | none =>
    rw [call_of_no_outputs_vector lambda args log hsize] at hres
    simp at hres
  | some m =>
    have hcall := call_of_outputs_vector lambda args log m hsize
    cases hinv : lambda.engine.invokePacked lambda.name
        (assembleRawArgs args.preparedArgs.length m) with
    | error msg =>
      rw [hinv] at hcall
      rw [hcall] at hres
      simp at hres
    | ok stored =>
      rw [hinv] at hcall
      simp only at hcall
      cases hdec : decodeLoop (storedOutputs m stored) args.clientParameters.outputs 0 [] with
      | none =>
        rw [hdec] at hcall
        rw [hcall] at hres
        simp at hres
      | some res =>
        obtain ⟨buffers, final⟩ := res
        rw [hdec] at hcall
        simp only at hcall
        rw [hcall] at hres
        simp only [CallOutcome.result.injEq] at hres
        have hsome := decodeLoop_some _ _ 0 [] buffers final (Nat.zero_le _) hdec
        rw [storedOutputs_length] at hsome
        subst hres
        obtain ⟨hle, hfinal, hbuf⟩ := hsome
        simp only [Nat.zero_add, List.nil_append] at hle hfinal hbuf
        subst hfinal
        exact ⟨m, stored, rfl, hinv, hdec, hbuf, hle, hcall⟩

theorem totalSlots_two_hugeGates : totalSlots [hugeGate, hugeGate] = 4294967302 := by
  rw [totalSlots_cons, totalSlots_cons, totalSlots_nil, slots_hugeGate]

theorem outputsSize_two_hugeGates (preparedArgs : List Nat) (runtimeContext : Nat) :
    outputsSize ⟨⟨[hugeGate, hugeGate]⟩, preparedArgs, runtimeContext⟩ = some 6 := by
  simp only [outputsSize, countOutputs_two_hugeGates]
  decide

/-- When the outputs vector is shorter than the slot total, a successful
invocation is followed by a read outside the vector, and nothing is handed to
`fromBuffers`. -/
theorem call_of_short_outputs (lambda : JITLambda) (args : PublicArguments)
    (log : List Effect) (m : Nat) (stored : List Nat) (hsize : outputsSize args = some m)
    (hinv : lambda.engine.invokePacked lambda.name
      (assembleRawArgs args.preparedArgs.length m) = .ok stored)
    (hlt : m < totalSlots args.clientParameters.outputs) :
    lambda.call args log = (.undefinedRead,
      log ++ [.invokePacked lambda.name (assembleRawArgs args.preparedArgs.length m)]) := by
  have hdec : decodeLoop (storedOutputs m stored) args.clientParameters.outputs 0 [] = none := by
    apply decodeLoop_of_gt
    · omega
    · rw [storedOutputs_length]
      omega
  rw [call_of_outputs_vector lambda args log m hsize, hinv]
  simp only [hdec]

/-! ## Evaluations on small inputs -/

theorem slots_examples :
    slots ⟨[], false⟩ = 1 ∧ slots ⟨[], true⟩ = 5 ∧ slots ⟨[2, 3], false⟩ = 7 ∧
      slots ⟨[2, 3], true⟩ = 9 ∧ totalSlots twoGateArgs.clientParameters.outputs = 10 ∧
      countOutputs twoGateArgs.clientParameters.outputs = 10 := by
  decide

theorem decodeGate_encrypted_scalar_example :
    decodeGate [100, 104, 0, 600, 1] 0 ⟨[], true⟩ =
      some (TensorData.memref 1 100 104 0 [600] [1], 5) := by
  decide

theorem assembleRawArgs_example :
    assembleRawArgs 2 3 =
      [some (Addr.preparedArg 0), some (Addr.preparedArg 1), some Addr.rtCtxPtr,
        some (Addr.output 0), some (Addr.output 1), some (Addr.output 2)] := by
  decide

theorem invokeRaw_null_example :
    JITLambda.invokeRaw ⟨"t", "main", failingEngine⟩
        [some (Addr.foreign 1), none, some (Addr.foreign 2), none] [] =
      (.error (.nullOrMissing 1), []) := by
  rfl

/-! ## The claims -/

/-- C3: a gate whose region starts at cursor `c` and lies in the output
region decodes, when it is a clear scalar, to the scalar held in slot `c`
(cursor moved by 1), and otherwise, with `r` its dimension count plus one if
encrypted, to the buffer of rank `r` with base pointer slot `c`, data pointer
slot `c+1`, element offset slot `c+2`, sizes the slots `c+3 .. c+3+r-1` in
order and strides the slots `c+3+r .. c+3+2r-1` in order (cursor moved by
`3 + 2r`), so that sizes and strides both have length `r`. -/
theorem decodeGate_region (outputs : List Nat) (c : Nat) (g : CircuitGate)
    (h : c + slots g ≤ outputs.length) :
    (g.dimensions = [] ∧ g.encrypted = false →
      decodeGate outputs c g = some (TensorData.scalar (outputs.getD c 0), c + 1)) ∧
    (¬ (g.dimensions = [] ∧ g.encrypted = false) →
      decodeGate outputs c g =
        some (TensorData.memref (g.dimensions.length + (if g.encrypted then 1 else 0))
          (outputs.getD c 0) (outputs.getD (c + 1) 0) (outputs.getD (c + 2) 0)
          ((List.range (g.dimensions.length + (if g.encrypted then 1 else 0))).map
            (fun i => outputs.getD (c + 3 + i) 0))
          ((List.range (g.dimensions.length + (if g.encrypted then 1 else 0))).map
            (fun i => outputs.getD
              (c + 3 + (g.dimensions.length + (if g.encrypted then 1 else 0)) + i) 0)),
          c + (3 + 2 * (g.dimensions.length + (if g.encrypted then 1 else 0)))) ∧
      ((List.range (g.dimensions.length + (if g.encrypted then 1 else 0))).map
        (fun i => outputs.getD (c + 3 + i) 0)).length =
          g.dimensions.length + (if g.encrypted then 1 else 0) ∧
      ((List.range (g.dimensions.length + (if g.encrypted then 1 else 0))).map
        (fun i => outputs.getD
          (c + 3 + (g.dimensions.length + (if g.encrypted then 1 else 0)) + i) 0)).length =
          g.dimensions.length + (if g.encrypted then 1 else 0)) := by
  have hdec := decodeGate_of_le outputs c g h
  constructor
  · intro hs
    rw [hdec]
    simp [decodedValue, slots, hs]
  · intro hs
    refine ⟨?_, by simp, by simp⟩
    rw [hdec]
    simp only [decodedValue, slots, if_neg hs, effectiveRank]

/-- C3, evaluated: a clear `[2,3]` tensor whose region starts at slot 1 gives
rank 2 from 7 slots. -/
theorem decodeGate_region_witness :
    1 + slots ⟨[2, 3], false⟩ ≤ [10, 20, 30, 40, 50, 60, 70, 80, 90].length ∧
    decodeGate [10, 20, 30, 40, 50, 60, 70, 80, 90] 1 ⟨[2, 3], false⟩ =
      some (TensorData.memref 2 20 30 40 [50, 60] [70, 80], 8) :=
  ⟨by decide,
    ((decodeGate_region [10, 20, 30, 40, 50, 60, 70, 80, 90] 1 ⟨[2, 3], false⟩
      (by decide)).2 (by decide)).1⟩

/-- C4: writing a buffer of rank `r ≥ 1` (sizes and strides of length `r`) as
base pointer, data pointer, element offset, sizes, strides gives `3 + 2r`
slots, and decoding these slots, wherever they sit in the output region, for
a gate of effective rank `r` gives back the same rank, pointers, offset,
sizes and strides. -/
theorem decode_encode_roundtrip (rank allocated aligned offset : Nat)
    (sizes strides : List Nat) (g : CircuitGate) (pre post : List Nat)
    (hrank : 1 ≤ rank) (hsizes : sizes.length = rank) (hstrides : strides.length = rank)
    (hg : effectiveRank g = rank) :
    (encodeTensorBuffer allocated aligned offset sizes strides).length = 3 + 2 * rank ∧
    decodeGate (pre ++ encodeTensorBuffer allocated aligned offset sizes strides ++ post)
        pre.length g =
      some (TensorData.memref rank allocated aligned offset sizes strides,
        pre.length + (3 + 2 * rank)) := by
  have hslots : slots g = 3 + 2 * rank := by
    rw [slots_of_rank_pos g (by omega), hg]
  have hlen : (encodeTensorBuffer allocated aligned offset sizes strides).length =
      3 + 2 * rank := by
    simp [encodeTensorBuffer]
    omega
  have hns : ¬ (g.dimensions = [] ∧ g.encrypted = false) := by
    rintro ⟨hd, he⟩
    simp [effectiveRank, hd, he] at hg
    omega
  refine ⟨hlen, ?_⟩
  rw [decodeGate_of_le _ _ _ (by simp [hslots, hlen]), hslots]
  simp only [decodedValue, hg, List.append_assoc, if_neg hns]
  have e0 := getD_append_offset pre
    (encodeTensorBuffer allocated aligned offset sizes strides ++ post) 0
  have e1 := getD_append_offset pre
    (encodeTensorBuffer allocated aligned offset sizes strides ++ post) 1
  have e2 := getD_append_offset pre
    (encodeTensorBuffer allocated aligned offset sizes strides ++ post) 2
  have esz : (List.range rank).map (fun i =>
      (pre ++ (encodeTensorBuffer allocated aligned offset sizes strides ++ post)).getD
        (pre.length + 3 + i) 0) = sizes := by
    have := map_getD_prefix sizes (strides ++ post)
    rw [hsizes] at this
    refine Eq.trans ?_ this
    apply List.map_congr_left
    intro i _
    rw [Nat.add_assoc, getD_append_offset]
    simp [encodeTensorBuffer, List.getD_eq_getElem?_getD, Nat.add_comm 3 i]
  have est : (List.range rank).map (fun i =>
      (pre ++ (encodeTensorBuffer allocated aligned offset sizes strides ++ post)).getD
        (pre.length + 3 + rank + i) 0) = strides := by
    have := map_getD_prefix strides post
    rw [hstrides] at this
    refine Eq.trans ?_ this
    apply List.map_congr_left
    intro i _
    rw [Nat.add_assoc, Nat.add_assoc, getD_append_offset]
    have h3 : 3 + (rank + i) = (sizes.length + i) + 3 := by omega
    rw [h3]
    simp only [encodeTensorBuffer, List.getD_eq_getElem?_getD, List.cons_append,
      List.getElem?_cons_succ, List.append_assoc]
    rw [List.getElem?_append_right (by omega)]
    simp
  simp only [Nat.add_zero] at e0
  rw [e0, e1, e2, esz, est]
  simp [encodeTensorBuffer, List.getD_eq_getElem?_getD]

/-- C4, evaluated on a rank 2 buffer decoded for an encrypted vector gate. -/
theorem decode_encode_roundtrip_witness :
    (1 ≤ 2 ∧ [2, 3].length = 2 ∧ [3, 1].length = 2 ∧ effectiveRank ⟨[5], true⟩ = 2) ∧
    decodeGate ([9] ++ encodeTensorBuffer 100 104 0 [2, 3] [3, 1] ++ [8, 8]) 1 ⟨[5], true⟩ =
      some (TensorData.memref 2 100 104 0 [2, 3] [3, 1], 1 + (3 + 2 * 2)) :=
  ⟨by decide,
    (decode_encode_roundtrip 2 100 104 0 [2, 3] [3, 1] ⟨[5], true⟩ [9] [8, 8]
      (by decide) (by decide) (by decide) (by decide)).2⟩

/-- C1, on the code: for the single clear gate of `2^30` dimensions the slot
total is 2147483651, the `int` counter `numOutputs` ends at -2147483645, and
the `outputs` vector of that size cannot be built. -/
theorem numOutputs_wraps_on_hugeGate :
    totalSlots [hugeGate] = 2147483651 ∧ countOutputs [hugeGate] = -2147483645 ∧
      outputsSize ⟨⟨[hugeGate]⟩, [], 0⟩ = none := by
  refine ⟨?_, countOutputs_hugeGate, ?_⟩
  · rw [totalSlots_cons, totalSlots_nil, slots_hugeGate]
  · simp only [outputsSize, countOutputs_hugeGate]
    decide

/-- C2, on the code: for two clear gates of `2^30` dimensions each the slot
total is 4294967302 while the `outputs` vector has 6 slots, and the decoding
loop reads outside that vector whatever the compiled function stored. -/
theorem decoding_leaves_outputs_on_two_hugeGates :
    totalSlots [hugeGate, hugeGate] = 4294967302 ∧
      outputsSize ⟨⟨[hugeGate, hugeGate]⟩, [], 0⟩ = some 6 ∧
      ∀ stored : List Nat,
        decodeLoop (storedOutputs 6 stored) [hugeGate, hugeGate] 0 [] = none := by
  have htotal : totalSlots [hugeGate, hugeGate] = 4294967302 := by
    rw [totalSlots_cons, totalSlots_cons, totalSlots_nil, slots_hugeGate]
  refine ⟨htotal, ?_, ?_⟩
  · simp only [outputsSize, countOutputs_two_hugeGates]
    decide
  · intro stored
    apply decodeLoop_of_gt
    · omega
    · rw [htotal, storedOutputs_length]
      omega

/-- C5, on the code: for a vector of `2^31` non-null entries followed by a
null entry the first null entry is at position 2147483648, and the error
reports position -2147483648. -/
theorem invokeRaw_position_wraps (lambda : JITLambda) (log : List Effect) :
    lambda.invokeRaw (List.replicate 2147483648 (some (Addr.foreign 1)) ++ [none]) log =
      (.error (.nullOrMissing (-2147483648)), log) := by
  have h := invokeRaw_replicate_null lambda log 2147483648 (Addr.foreign 1)
  have hpos : toInt32 ((2147483648 : Nat) : Int) = -2147483648 := by decide
  rw [hpos] at h
  exact h

/-- C10, on the code: for the single clear gate of `2^30` dimensions `call`
ends in the exception of the `outputs` constructor and performs no packed
invocation (the log is unchanged). -/
theorem call_stops_before_invocation_on_hugeGate (lambda : JITLambda) (log : List Effect) :
    lambda.call ⟨⟨[hugeGate]⟩, [7], 0⟩ log = (.lengthError, log) := by
  apply call_of_no_outputs_vector
  simp only [outputsSize, countOutputs_hugeGate]
  decide

/-- Shape of a result: when `call` hands a buffer sequence to `fromBuffers`, the packed
invocation succeeded, the sequence has one element per output gate, and its
element `k` is the value the decoding step produces for gate `k` at the cursor
reached after gates `0 .. k-1` (a scalar for a clear scalar gate, a memref
buffer otherwise). -/
theorem call_buffers_in_gate_order (lambda : JITLambda) (args : PublicArguments)
    (log : List Effect) (r : PublicResult) (hres : (lambda.call args log).1 = .result r) :
    r.buffers.length = args.clientParameters.outputs.length ∧
    ∃ m stored log1, outputsSize args = some m ∧
      lambda.invokeRaw (assembleRawArgs args.preparedArgs.length m) log = (.ok stored, log1) ∧
      (lambda.call args log).2 = log1 ++ [.fromBuffers r.buffers] ∧
      ∀ k g, args.clientParameters.outputs[k]? = some g →
        ∃ v, r.buffers[k]? = some v ∧
          decodeGate (storedOutputs m stored) (regionStart args.clientParameters.outputs k) g =
            some (v, regionStart args.clientParameters.outputs (k + 1)) ∧
          ((g.dimensions = [] ∧ g.encrypted = false) → ∃ bits, v = TensorData.scalar bits) ∧
          (¬ (g.dimensions = [] ∧ g.encrypted = false) →
            ∃ allocated aligned offset sizes strides,
              v = TensorData.memref (effectiveRank g) allocated aligned offset sizes strides) := by
  obtain ⟨m, stored, hsize, hinv, _, hbuf, hle, hcall⟩ := call_result_inv lambda args log r hres
  refine ⟨by rw [hbuf, decodedValues_length], m, stored,
    log ++ [.invokePacked lambda.name (assembleRawArgs args.preparedArgs.length m)],
    hsize, ?_, by rw [hcall], ?_⟩
  · rw [invokeRaw_of_no_null lambda _ log (assembleRawArgs_ne_none _ _), hinv]
  · intro k g hg
    refine ⟨decodedValue (storedOutputs m stored)
      (regionStart args.clientParameters.outputs k) g, ?_, ?_, ?_, ?_⟩
    · rw [hbuf, decodedValues_getElem? _ 0 _ k g hg, Nat.zero_add]
      rfl
    · have hsucc := totalSlots_take_succ args.clientParameters.outputs k g hg
      have hmono := totalSlots_take_le args.clientParameters.outputs (k + 1)
      unfold regionStart
      rw [hsucc]
      apply decodeGate_of_le
      rw [storedOutputs_length]
      omega
    · intro hs
      exact ⟨_, by rw [decodedValue, if_pos hs]⟩
    · intro hs
      exact ⟨_, _, _, _, _, by rw [decodedValue, if_neg hs]⟩

/-- C7: the raw vector built for `n` prepared inputs and `m` output slots has
length `n + 1 + m`; entry `i < n` is the address of prepared input `i`, entry
`n` is the address of the runtime context pointer, and entry `n + 1 + j` with
`j < m` is the address of output slot `j`. -/
theorem assembleRawArgs_layout (n m : Nat) :
    (assembleRawArgs n m).length = n + 1 + m ∧
    ∀ i : Nat, (assembleRawArgs n m)[i]? =
      if i < n then some (some (Addr.preparedArg i))
      else if i = n then some (some Addr.rtCtxPtr)
      else if i < n + 1 + m then some (some (Addr.output (i - (n + 1))))
      else none := by
  rw [assembleRawArgs_eq]
  refine ⟨by simp; omega, ?_⟩
  intro i
  by_cases h1 : i < n
  · rw [if_pos h1, List.append_assoc, List.getElem?_append_left (by simpa using h1)]
    simp [h1]
  · rw [if_neg h1]
    by_cases h2 : i = n
    · rw [if_pos h2, List.getElem?_append_left (by simp; omega),
        List.getElem?_append_right (by simp; omega)]
      simp [h2]
    · rw [if_neg h2, List.getElem?_append_right (by simp; omega)]
      by_cases h3 : i < n + 1 + m
      · rw [if_pos h3]
        have hlt : i - (n + 1) < m := by omega
        simp [hlt]
      · rw [if_neg h3]
        simp
        omega

/-- C8: `create` returns the function-not-found error exactly when no function
of the module has the given name, and in that case it has performed none of
the later steps (the log is unchanged: no native target initialisation, no
engine construction). -/
theorem create_cannotFindFunction (engineCreate : ModuleOp → List String → Option ExecutionEngine)
    (name : String) (module : ModuleOp) (runtimeLibPath : Option String)
    (log : List Effect) :
    ((∀ f ∈ module.funcs, f.name ≠ name) →
      JITLambda.create engineCreate name module runtimeLibPath log =
        (.error .cannotFindFunction, log)) ∧
    ((∃ f ∈ module.funcs, f.name = name) →
      ∀ l, (JITLambda.create engineCreate name module runtimeLibPath log) ≠
        (.error .cannotFindFunction, l)) := by
  constructor
  · intro h
    have hnone : module.funcs.find? (fun op => op.name == name) = none := by
      rw [List.find?_eq_none]
      intro f hf
      simpa using h f hf
    simp only [JITLambda.create, hnone]
  · rintro ⟨f, hf, hname⟩ l
    cases hfind : module.funcs.find? (fun op => op.name == name) with
    | none =>
      rw [List.find?_eq_none] at hfind
      have := hfind f hf
      simp [hname] at this
    | some funcOp =>
      simp only [JITLambda.create, hfind]
      cases engineCreate module (match runtimeLibPath with | some p => [p] | none => []) with
      | none => simp
      | some engine => simp

/-- C9: when the invocation step of `call` returns an error, `call` returns
that error with the log the invocation step left (nothing is decoded, nothing
is handed to `fromBuffers`); and when `call` produces a result, the
invocation step succeeded and the decoding loop went through every output
gate, giving one buffer per gate. -/
theorem call_error_or_complete (lambda : JITLambda) (args : PublicArguments)
    (log : List Effect) :
    (∀ m e log1, outputsSize args = some m →
      lambda.invokeRaw (assembleRawArgs args.preparedArgs.length m) log = (.error e, log1) →
      lambda.call args log = (.error e, log1)) ∧
    (∀ r, (lambda.call args log).1 = .result r →
      ∃ m stored log1, outputsSize args = some m ∧
        lambda.invokeRaw (assembleRawArgs args.preparedArgs.length m) log = (.ok stored, log1) ∧
        decodeLoop (storedOutputs m stored) args.clientParameters.outputs 0 [] =
          some (r.buffers, totalSlots args.clientParameters.outputs) ∧
        r.buffers.length = args.clientParameters.outputs.length ∧
        lambda.call args log = (.result r, log1 ++ [.fromBuffers r.buffers])) := by
  constructor
  · intro m e log1 hsize hinv
    simp only [JITLambda.call, hsize, hinv]
  · intro r hres
    obtain ⟨m, stored, hsize, hinv, hdec, hbuf, _, hcall⟩ :=
      call_result_inv lambda args log r hres
    refine ⟨m, stored,
      log ++ [.invokePacked lambda.name (assembleRawArgs args.preparedArgs.length m)],
      hsize, ?_, hdec, by rw [hbuf, decodedValues_length], hcall⟩
    rw [invokeRaw_of_no_null lambda _ log (assembleRawArgs_ne_none _ _), hinv]

/-- Evaluation on a clear scalar gate followed by an encrypted tensor gate of
two dimensions: ten slots give two buffers, in gate order. -/
theorem call_buffers_in_gate_order_witness :
    (JITLambda.call ⟨"t", "main", storingEngine [7, 100, 104, 0, 2, 3, 5, 15, 5, 1]⟩
        twoGateArgs []).1 =
      .result ⟨twoGateArgs.clientParameters,
        [TensorData.scalar 7, TensorData.memref 3 100 104 0 [2, 3, 5] [15, 5, 1]]⟩ ∧
    [TensorData.scalar 7, TensorData.memref 3 100 104 0 [2, 3, 5] [15, 5, 1]].length =
      twoGateArgs.clientParameters.outputs.length :=
  ⟨by decide,
    (call_buffers_in_gate_order ⟨"t", "main", storingEngine [7, 100, 104, 0, 2, 3, 5, 15, 5, 1]⟩
      twoGateArgs []
      ⟨twoGateArgs.clientParameters,
        [TensorData.scalar 7, TensorData.memref 3 100 104 0 [2, 3, 5] [15, 5, 1]]⟩
      (by decide)).1⟩

/-- C8, evaluated: a name absent from a one-function module gives the
function-not-found error and an empty log. -/
theorem create_cannotFindFunction_witness :
    (∀ f ∈ (⟨[⟨"main", "t"⟩]⟩ : ModuleOp).funcs, f.name ≠ "other") ∧
    JITLambda.create (fun _ _ => some failingEngine) "other" ⟨[⟨"main", "t"⟩]⟩ none [] =
      (.error .cannotFindFunction, []) :=
  ⟨by decide,
    (create_cannotFindFunction (fun _ _ => some failingEngine) "other" ⟨[⟨"main", "t"⟩]⟩
      none []).1 (by decide)⟩

/-- C9, evaluated: an engine failure comes out of `call` unchanged, with the
log of the invocation step. -/
theorem call_error_or_complete_witness :
    outputsSize twoGateArgs = some 10 ∧
    JITLambda.call ⟨"t", "main", failingEngine⟩ twoGateArgs [] =
      (.error (.engineError "trap"),
        [.invokePacked "main" (assembleRawArgs twoGateArgs.preparedArgs.length 10)]) :=
  ⟨by decide,
    (call_error_or_complete ⟨"t", "main", failingEngine⟩ twoGateArgs []).1 10
      (.engineError "trap")
      [.invokePacked "main" (assembleRawArgs twoGateArgs.preparedArgs.length 10)]
      (by decide) (by rfl)⟩

/-- C6, on the code: for two clear gates of `2^30` dimensions each and an
engine whose packed invocation succeeds, the invocation step of `call`
returns success, yet `call` hands no buffer sequence to `fromBuffers`: the
`outputs` vector has 6 slots, the decoding loop reads outside it, and the log
ends with the packed invocation. -/
theorem call_hands_no_buffers_on_two_hugeGates (stored : List Nat) (log : List Effect) :
    outputsSize ⟨⟨[hugeGate, hugeGate]⟩, [], 0⟩ = some 6 ∧
    JITLambda.invokeRaw ⟨"t", "main", storingEngine stored⟩ (assembleRawArgs 0 6) log =
      (.ok stored, log ++ [.invokePacked "main" (assembleRawArgs 0 6)]) ∧
    JITLambda.call ⟨"t", "main", storingEngine stored⟩ ⟨⟨[hugeGate, hugeGate]⟩, [], 0⟩ log =
      (.undefinedRead, log ++ [.invokePacked "main" (assembleRawArgs 0 6)]) :=
  ⟨outputsSize_two_hugeGates [] 0,
    invokeRaw_of_no_null ⟨"t", "main", storingEngine stored⟩ (assembleRawArgs 0 6) log
      (assembleRawArgs_ne_none 0 6),
    call_of_short_outputs ⟨"t", "main", storingEngine stored⟩ ⟨⟨[hugeGate, hugeGate]⟩, [], 0⟩
      log 6 stored (outputsSize_two_hugeGates [] 0) rfl
      (Nat.lt_of_lt_of_eq (by decide : 6 < 4294967302) totalSlots_two_hugeGates.symm)⟩

end Concrete
